import Mathlib

/-!
Verification of the schedule-processing core of `src/main.py` (light-monitor-kyiv).

The Python code is shallowly embedded: dictionaries become association lists,
`None`-able values become `Option`, Python floats (which here are always exact
multiples of 0.5) become `ℚ`, and loops with mutable state become recursive
functions with explicit state passing.  Fallible operations (Python statements
that can raise, such as indexing a list) return `Option`, with `none` for a
raised exception.  The global `CONFIG` is modelled by the values of
`DEFAULT_CONFIG` (what `load_config` returns when no `config.json` is present).
-/

namespace LightMonitor

/-! ## Time rendering (`format_time`, `format_slot_time`, main.py lines 120-131) -/

/-- Python `f"{n:02d}"`: decimal rendering zero-padded to width 2. -/
def pad2 (n : Nat) : String :=
  if n < 10 then "0" ++ toString n else toString n

/-- `format_time` (main.py 120-126): minutes to `HH:MM`, with `24:00` special-cased. -/
def format_time (minutes : Nat) : String :=
  if minutes / 60 = 24 then "24:00"
  else pad2 (minutes / 60) ++ ":" ++ pad2 (minutes % 60)

/-- `format_slot_time` (main.py 129-131): slot index (0-48) to time string. -/
def format_slot_time (slot : Nat) : String :=
  format_time (slot * 30)

/-- Split a character list at every occurrence of `c` (helper for recovering a
slot index from a rendered time; specification-side only). -/
def splitOnChar (c : Char) : List Char → List (List Char)
  | [] => [[]]
  | x :: xs =>
    let r := splitOnChar c xs
    if x = c then [] :: r
    else
      match r with
      | [] => [[x]]
      | h :: t => (x :: h) :: t

/-- Decimal digit list to `Nat` (specification-side only). -/
def natOfDigits (l : List Char) : Nat :=
  l.foldl (fun n c => n * 10 + (c.toNat - 48)) 0

/-- Recover a slot index from a rendered `HH:MM` time string: the inverse
reading used by the claims ("boundaries recovered from the rendered slot
times").  Specification-side only; not part of the Python source. -/
def parse_slot_time (t : String) : Nat :=
  match splitOnChar ':' t.data with
  | [h, m] => (natOfDigits h * 60 + natOfDigits m) / 30
  | _ => 0

/-- Rendering a slot index in `[0, 48]` and reading it back is the identity. -/
theorem parse_format_slot : ∀ s, s < 49 → parse_slot_time (format_slot_time s) = s := by
  decide

/-! ## Period compressor (`slots_to_periods`, main.py 309-338) -/

/-- One period dictionary produced by `slots_to_periods`: keys `start`, `end`
(rendered time strings), `is_on`, and `hours` (a Python float, always an exact
multiple of 0.5, modelled by `ℚ`). -/
structure Period where
  start : String
  «end» : String
  is_on : Bool
  hours : ℚ
deriving DecidableEq

/-- The scan loop of `slots_to_periods` (main.py 318-336): `i` is the current
index, `cur` the running `current_status`, `start` the running `start_slot`,
and the remaining list holds `slots[i:]`.  The nil case is the final flush
(main.py 330-336), where `i = len` always holds. -/
def stpGo (len : Nat) : Nat → Bool → Nat → List Bool → List Period
  | _, cur, start, [] =>
    [⟨format_slot_time start, format_slot_time len, cur, ((len : ℚ) - (start : ℚ)) * 0.5⟩]
  | i, cur, start, b :: rest =>
    if b = cur then stpGo len (i + 1) cur start rest
    else
      ⟨format_slot_time start, format_slot_time i, cur, ((i : ℚ) - (start : ℚ)) * 0.5⟩ ::
        stpGo len (i + 1) b i rest

/-- `slots_to_periods` (main.py 309-338). -/
def slots_to_periods (slots : List Bool) : List Period :=
  match slots with
  | [] => []
  | s0 :: rest => stpGo slots.length 1 s0 0 rest

/-- Re-expansion of a period list back into slot booleans: each period
contributes one copy of its `is_on` value per slot between its boundaries, the
boundaries being recovered from the rendered time strings (the claims' reading
of the round-trip law). -/
def expand_periods (ps : List Period) : List Bool :=
  (ps.map fun p =>
    List.replicate (parse_slot_time p.«end» - parse_slot_time p.start) p.is_on).flatten

theorem expand_periods_nil : expand_periods [] = [] := rfl

theorem expand_periods_cons (p : Period) (ps : List Period) :
    expand_periods (p :: ps) =
      List.replicate (parse_slot_time p.«end» - parse_slot_time p.start) p.is_on ++
        expand_periods ps := rfl

/-- Re-expanding the output of the scan loop recovers the run seen so far
followed by the unprocessed slots. -/
theorem expand_stpGo (len : Nat) (hlen48 : len < 49) :
    ∀ (rest : List Bool) (i start : Nat) (cur : Bool),
      len = i + rest.length → start < i →
      expand_periods (stpGo len i cur start rest) = List.replicate (i - start) cur ++ rest := by
  intro rest
  induction rest with
  | nil =>
    intro i start cur hlen hsi
    have hi : i = len := by simpa using hlen.symm
    subst hi
    rw [show stpGo i i cur start [] =
        [⟨format_slot_time start, format_slot_time i, cur, ((i : ℚ) - (start : ℚ)) * 0.5⟩]
      from rfl]
    rw [expand_periods_cons, expand_periods_nil,
      parse_format_slot i hlen48, parse_format_slot start (by omega)]
  | cons b rest ih =>
    intro i start cur hlen hsi
    have hlen' : len = (i + 1) + rest.length := by
      simp only [List.length_cons] at hlen; omega
    by_cases hb : b = cur
    · rw [show stpGo len i cur start (b :: rest) =
          (if b = cur then stpGo len (i + 1) cur start rest
           else ⟨format_slot_time start, format_slot_time i, cur,
              ((i : ℚ) - (start : ℚ)) * 0.5⟩ :: stpGo len (i + 1) b i rest) from rfl]
      rw [if_pos hb]
      rw [ih (i + 1) start cur hlen' (by omega)]
      subst hb
      have h1 : i + 1 - start = (i - start) + 1 := by omega
      rw [h1, List.replicate_succ', List.append_assoc, List.singleton_append]
    · rw [show stpGo len i cur start (b :: rest) =
          (if b = cur then stpGo len (i + 1) cur start rest
           else ⟨format_slot_time start, format_slot_time i, cur,
              ((i : ℚ) - (start : ℚ)) * 0.5⟩ :: stpGo len (i + 1) b i rest) from rfl]
      rw [if_neg hb]
      rw [expand_periods_cons, ih (i + 1) i b hlen' (by omega)]
      rw [parse_format_slot i (by omega), parse_format_slot start (by omega)]
      have h1 : i + 1 - i = 1 := by omega
      rw [h1]
      simp [List.replicate]

/-- C1: for every 48-element boolean slot array, re-expanding the period
sequence produced by `slots_to_periods` (boundaries recovered from the
rendered slot times, one copy of `is_on` per slot between them) reproduces the
original array exactly. -/
theorem slots_to_periods_roundtrip (slots : List Bool) (h : slots.length = 48) :
    expand_periods (slots_to_periods slots) = slots := by
  cases slots with
  | nil => simp at h
  | cons s0 rest =>
    have hr : rest.length = 47 := by simpa using h
    simp only [slots_to_periods]
    rw [expand_stpGo (s0 :: rest).length (by simp [hr]) rest 1 0 s0
      (by simp [Nat.add_comm]) (by omega)]
    simp [List.replicate]

/-- C1 witness: the round-trip law evaluated on a concrete 48-slot array. -/
theorem slots_to_periods_roundtrip_witness :
    expand_periods (slots_to_periods (List.replicate 48 true)) = List.replicate 48 true :=
  slots_to_periods_roundtrip (List.replicate 48 true) (by simp)

/-! ## C2: the period sequence partitions the 48-slot range -/

theorem stpGo_nil_eq (len i start : Nat) (cur : Bool) :
    stpGo len i cur start [] =
      [⟨format_slot_time start, format_slot_time len, cur, ((len : ℚ) - (start : ℚ)) * 0.5⟩] :=
  rfl

theorem stpGo_cons_eq (len i start : Nat) (cur b : Bool) (rest : List Bool) :
    stpGo len i cur start (b :: rest) =
      if b = cur then stpGo len (i + 1) cur start rest
      else ⟨format_slot_time start, format_slot_time i, cur, ((i : ℚ) - (start : ℚ)) * 0.5⟩ ::
        stpGo len (i + 1) b i rest :=
  rfl

/-- The scan loop always emits at least one period, whose `start` renders the
running `start_slot` and whose `is_on` is the running status. -/
theorem stpGo_head (len : Nat) :
    ∀ (rest : List Bool) (i start : Nat) (cur : Bool),
      ∃ p ps', stpGo len i cur start rest = p :: ps' ∧
        p.start = format_slot_time start ∧ p.is_on = cur := by
  intro rest
  induction rest with
  | nil => intro i start cur; exact ⟨_, _, stpGo_nil_eq len i start cur, rfl, rfl⟩
  | cons b rest ih =>
    intro i start cur
    rw [stpGo_cons_eq]
    by_cases hb : b = cur
    · rw [if_pos hb]; exact ih (i + 1) start cur
    · rw [if_neg hb]; exact ⟨_, _, rfl, rfl, rfl⟩

/-- The final period emitted by the scan loop ends at the rendered array length. -/
theorem stpGo_last (len : Nat) :
    ∀ (rest : List Bool) (i start : Nat) (cur : Bool),
      ∃ q, (stpGo len i cur start rest).getLast? = some q ∧ q.«end» = format_slot_time len := by
  intro rest
  induction rest with
  | nil => intro i start cur; rw [stpGo_nil_eq]; exact ⟨_, rfl, rfl⟩
  | cons b rest ih =>
    intro i start cur
    rw [stpGo_cons_eq]
    by_cases hb : b = cur
    · rw [if_pos hb]; exact ih (i + 1) start cur
    · rw [if_neg hb]
      obtain ⟨p', ps', heq, _, _⟩ := stpGo_head len rest (i + 1) i b
      obtain ⟨q, hq, hqe⟩ := ih (i + 1) i b
      rw [heq]
      rw [heq] at hq
      exact ⟨q, by rw [List.getLast?_cons_cons]; exact hq, hqe⟩

/-- Adjacent periods emitted by the scan loop abut (shared rendered boundary)
and carry different `is_on` values. -/
theorem stpGo_chain (len : Nat) :
    ∀ (rest : List Bool) (i start : Nat) (cur : Bool),
      List.Chain' (fun p q => p.«end» = q.start ∧ p.is_on ≠ q.is_on)
        (stpGo len i cur start rest) := by
  intro rest
  induction rest with
  | nil => intro i start cur; rw [stpGo_nil_eq]; exact List.chain'_singleton _
  | cons b rest ih =>
    intro i start cur
    rw [stpGo_cons_eq]
    by_cases hb : b = cur
    · rw [if_pos hb]; exact ih (i + 1) start cur
    · rw [if_neg hb]
      obtain ⟨p', ps', heq, hstart, hon⟩ := stpGo_head len rest (i + 1) i b
      rw [heq]
      refine List.chain'_cons.mpr ⟨⟨by rw [hstart], ?_⟩, ?_⟩
      · show cur ≠ p'.is_on
        rw [hon]
        exact fun hc => hb hc.symm
      · rw [← heq]; exact ih (i + 1) i b

/-- Every period emitted by the scan loop has boundaries rendered from slot
indices `a < b ≤ len`, with its `hours` equal to `(b - a) * 0.5`. -/
theorem stpGo_mem (len : Nat) :
    ∀ (rest : List Bool) (i start : Nat) (cur : Bool),
      start < i → len = i + rest.length →
      ∀ p ∈ stpGo len i cur start rest,
        ∃ a b, a < b ∧ b ≤ len ∧
          p = ⟨format_slot_time a, format_slot_time b, p.is_on, ((b : ℚ) - (a : ℚ)) * 0.5⟩ := by
  intro rest
  induction rest with
  | nil =>
    intro i start cur hsi hlen p hp
    rw [stpGo_nil_eq] at hp
    simp only [List.mem_singleton] at hp
    subst hp
    simp only [List.length_nil] at hlen
    exact ⟨start, len, by omega, le_refl len, rfl⟩
  | cons b rest ih =>
    intro i start cur hsi hlen p hp
    have hlen' : len = (i + 1) + rest.length := by
      simp only [List.length_cons] at hlen; omega
    rw [stpGo_cons_eq] at hp
    by_cases hb : b = cur
    · rw [if_pos hb] at hp
      exact ih (i + 1) start cur (by omega) hlen' p hp
    · rw [if_neg hb] at hp
      rcases List.mem_cons.mp hp with h | h
      · subst h
        exact ⟨start, i, hsi, by omega, rfl⟩
      · exact ih (i + 1) i b (by omega) hlen' p h

/-- C2: for every 48-element slot array, the emitted periods partition the
48-slot range with no gaps or overlaps (first starts at slot 0, each period's
end equals the next period's start, the last ends at slot 48), adjacent
periods have different `is_on` values, and each `hours` field equals
`(endSlot - startSlot) * 0.5` (boundaries recovered from the rendered times). -/
theorem slots_to_periods_partition (slots : List Bool) (h : slots.length = 48) :
    slots_to_periods slots ≠ [] ∧
    (∀ p, (slots_to_periods slots).head? = some p → p.start = "00:00") ∧
    (∀ p, (slots_to_periods slots).getLast? = some p → p.«end» = "24:00") ∧
    List.Chain' (fun p q => p.«end» = q.start ∧ p.is_on ≠ q.is_on) (slots_to_periods slots) ∧
    (∀ p ∈ slots_to_periods slots,
      parse_slot_time p.start < parse_slot_time p.«end» ∧
      p.hours = ((parse_slot_time p.«end» : ℚ) - (parse_slot_time p.start : ℚ)) * 0.5) := by
  cases slots with
  | nil => simp at h
  | cons s0 rest =>
    have hr : rest.length = 47 := by simpa using h
    have hL48 : (s0 :: rest).length = 48 := by simp [hr]
    have hlen : (s0 :: rest).length = 1 + rest.length := by simp [Nat.add_comm]
    simp only [slots_to_periods]
    refine ⟨?_, ?_, ?_, ?_, ?_⟩
    · obtain ⟨p, ps', heq, _, _⟩ := stpGo_head (s0 :: rest).length rest 1 0 s0
      rw [heq]; simp
    · intro p hp
      obtain ⟨p', ps', heq, hstart, _⟩ := stpGo_head (s0 :: rest).length rest 1 0 s0
      rw [heq, List.head?_cons] at hp
      have hpp : p' = p := by simpa using hp
      rw [← hpp, hstart]
      decide
    · intro p hp
      obtain ⟨q, hq, hqe⟩ := stpGo_last (s0 :: rest).length rest 1 0 s0
      rw [hq] at hp
      have hpp : q = p := by simpa using hp
      rw [← hpp, hqe, hL48]
      decide
    · exact stpGo_chain (s0 :: rest).length rest 1 0 s0
    · intro p hp
      obtain ⟨a, b, hab, hbl, hpe⟩ := stpGo_mem (s0 :: rest).length rest 1 0 s0
        (by omega) hlen p hp
      rw [hL48] at hbl
      constructor
      · rw [hpe]
        show parse_slot_time (format_slot_time a) < parse_slot_time (format_slot_time b)
        rw [parse_format_slot a (by omega), parse_format_slot b (by omega)]
        exact hab
      · rw [hpe]
        show ((b : ℚ) - (a : ℚ)) * 0.5 =
          ((parse_slot_time (format_slot_time b) : ℚ) -
            (parse_slot_time (format_slot_time a) : ℚ)) * 0.5
        rw [parse_format_slot a (by omega), parse_format_slot b (by omega)]

/-- C2 witness: the partition invariants evaluated on a concrete 48-slot array. -/
theorem slots_to_periods_partition_witness :
    slots_to_periods (List.replicate 48 true) ≠ [] ∧
    (∀ p, (slots_to_periods (List.replicate 48 true)).head? = some p → p.start = "00:00") ∧
    (∀ p, (slots_to_periods (List.replicate 48 true)).getLast? = some p → p.«end» = "24:00") ∧
    List.Chain' (fun p q => p.«end» = q.start ∧ p.is_on ≠ q.is_on)
      (slots_to_periods (List.replicate 48 true)) ∧
    (∀ p ∈ slots_to_periods (List.replicate 48 true),
      parse_slot_time p.start < parse_slot_time p.«end» ∧
      p.hours = ((parse_slot_time p.«end» : ℚ) - (parse_slot_time p.start : ℚ)) * 0.5) :=
  slots_to_periods_partition (List.replicate 48 true) (by simp)

/-! ## C7: `format_hours` (main.py 104-117)

Python first replaces an integral float by its `int`; a value still a float at
the `isinstance` check (i.e. with a fractional part) returns immediately with
the `" години"` suffix.  Integral values then go through the declension
branches.  A `ℚ` value models the float: integral iff its denominator is 1,
and Python's `%` on non-negative divisors agrees with `Int.emod`.  (The text
produced for the numeric part by Python's `str` differs from Lean's `toString`
for non-integral values; the claims only concern the suffix word.) -/

def format_hours (hours : ℚ) : String :=
  if hours.den = 1 then
    let n := hours.num
    if n % 10 = 1 ∧ n % 100 ≠ 11 then toString n ++ " година"
    else if (n % 10 = 2 ∨ n % 10 = 3 ∨ n % 10 = 4) ∧
        ¬(n % 100 = 12 ∨ n % 100 = 13 ∨ n % 100 = 14) then toString n ++ " години"
    else toString n ++ " годин"
  else toString hours ++ " години"

/-- The rational 2.5, written with explicit numerator and denominator so that
it evaluates inside the kernel. -/
def two_point_five : ℚ := ⟨5, 2, by decide, by norm_num⟩

/-- C7 counterexample: the claim says every non-integer value renders with the
generic plural form `" годин"`; at 2.5 the code renders `" години"` (the 2-4
plural form) instead. -/
theorem format_hours_noninteger_cex :
    two_point_five = (5 / 2 : ℚ) ∧
    format_hours two_point_five = "5/2 години" ∧
    ¬ ∃ p, format_hours two_point_five = p ++ " годин" := by
  refine ⟨by rw [show two_point_five = (⟨5, 2, by decide, by norm_num⟩ : ℚ) from rfl,
    Rat.mk'_eq_divInt, Rat.divInt_eq_div]; norm_num, rfl, ?_⟩
  rintro ⟨p, hp⟩
  have h2 : format_hours two_point_five = "5/2 години" := rfl
  rw [h2] at hp
  have hsuf : (" годин").data <:+ ("5/2 години").data :=
    ⟨p.data, (congrArg String.data hp).symm⟩
  exact absurd hsuf (by decide)

/-- C7 amended: exact integers whose `% 10` is 1 (except `% 100 = 11`) use the
singular form; exact integers whose `% 10` is 2-4 (except `% 100` in 12-14)
use plural form A (`" години"`); every other exact integer uses the generic
plural (`" годин"`); and every non-integer value uses plural form A
(`" години"`), not the generic plural. -/
theorem format_hours_declension (h : ℚ) :
    (h.den = 1 ∧ h.num % 10 = 1 ∧ h.num % 100 ≠ 11 →
      ∃ p, format_hours h = p ++ " година") ∧
    (h.den = 1 ∧ (h.num % 10 = 2 ∨ h.num % 10 = 3 ∨ h.num % 10 = 4) ∧
        ¬(h.num % 100 = 12 ∨ h.num % 100 = 13 ∨ h.num % 100 = 14) →
      ∃ p, format_hours h = p ++ " години") ∧
    (h.den = 1 ∧ ¬(h.num % 10 = 1 ∧ h.num % 100 ≠ 11) ∧
        ¬((h.num % 10 = 2 ∨ h.num % 10 = 3 ∨ h.num % 10 = 4) ∧
          ¬(h.num % 100 = 12 ∨ h.num % 100 = 13 ∨ h.num % 100 = 14)) →
      ∃ p, format_hours h = p ++ " годин") ∧
    (h.den ≠ 1 → ∃ p, format_hours h = p ++ " години") := by
  refine ⟨?_, ?_, ?_, ?_⟩
  · rintro ⟨hd, hc⟩
    simp only [format_hours]
    rw [if_pos hd, if_pos hc]
    exact ⟨_, rfl⟩
  · rintro ⟨hd, hc⟩
    have hne : ¬(h.num % 10 = 1 ∧ h.num % 100 ≠ 11) := by
      rintro ⟨ha, -⟩
      rcases hc.1 with h1 | h1 | h1 <;> omega
    simp only [format_hours]
    rw [if_pos hd, if_neg hne, if_pos hc]
    exact ⟨_, rfl⟩
  · rintro ⟨hd, hc1, hc2⟩
    simp only [format_hours]
    rw [if_pos hd, if_neg hc1, if_neg hc2]
    exact ⟨_, rfl⟩
  · intro hd
    simp only [format_hours]
    rw [if_neg hd]
    exact ⟨_, rfl⟩

/-- C7 witness: the four declension branches evaluated at 21, 3, 11 and 2.5. -/
theorem format_hours_declension_witness :
    (∃ p, format_hours 21 = p ++ " година") ∧
    (∃ p, format_hours 3 = p ++ " години") ∧
    (∃ p, format_hours 11 = p ++ " годин") ∧
    (∃ p, format_hours two_point_five = p ++ " години") :=
  ⟨(format_hours_declension 21).1 ⟨by norm_num, by norm_num, by norm_num⟩,
   (format_hours_declension 3).2.1 ⟨by norm_num, by norm_num, by norm_num⟩,
   (format_hours_declension 11).2.2.1 ⟨by norm_num, by norm_num, by norm_num⟩,
   (format_hours_declension two_point_five).2.2.2 (by decide)⟩

/-! ## GitHub-style normalizer (main.py 178-244) -/

/-- Python `day_data.get(key, fallback)` on a string-keyed dict. -/
def dict_get (d : List (String × String)) (key fallback : String) : String :=
  (d.lookup key).getD fallback

/-- `is_all_yes` (main.py 178-183): every hour 1-24 absent or `"yes"`. -/
def is_all_yes (day_data : List (String × String)) : Bool :=
  (List.range' 1 24).all fun hour => dict_get day_data (toString hour) "yes" == "yes"

/-- `parse_github_day` (main.py 186-206): two half-hour slots per hour. -/
def parse_github_day (day_data : List (String × String)) : List Bool :=
  ((List.range' 1 24).map fun hour =>
    let status := dict_get day_data (toString hour) "yes"
    if status = "yes" then [true, true]
    else if status = "no" then [false, false]
    else if status = "first" then [false, true]
    else if status = "second" then [true, false]
    else [true, true]).flatten

/-- The per-day body of `extract_github_schedules` (main.py 223-242), date
fields omitted: `day_data` is the group's entry in the day dict (`none` models
Python `None` for an absent group).  The guard `if not day_data: continue`
(main.py 224) skips a falsy payload — absent or empty — recording nothing
(outer `none`); otherwise the day is classified `pending` with no slots when
`is_all_yes`, else `normal` with the parsed slot array. -/
def github_day_schedule (day_data : Option (List (String × String))) :
    Option (Option (List Bool) × String) :=
  match day_data with
  | none => none
  | some d =>
    if d.isEmpty then none
    else if is_all_yes d then some (none, "pending")
    else some (some (parse_github_day d), "normal")

theorem getD_yes (o : Option String) : o.getD "yes" = "yes" ↔ o = none ∨ o = some "yes" := by
  cases o <;> simp

theorem is_all_yes_iff (d : List (String × String)) :
    is_all_yes d = true ↔
      ∀ h ∈ List.range' 1 24,
        d.lookup (toString h) = none ∨ d.lookup (toString h) = some "yes" := by
  simp only [is_all_yes, List.all_eq_true, beq_iff_eq, dict_get, getD_yes]

theorem flatten_pairs_length (f : Nat → List Bool) (hf : ∀ a, (f a).length = 2) :
    ∀ l : List Nat, ((l.map f).flatten).length = 2 * l.length := by
  intro l
  induction l with
  | nil => rfl
  | cons a l ih =>
    simp only [List.map_cons, List.flatten_cons, List.length_append, ih, hf a,
      List.length_cons]
    ring

theorem parse_github_day_length (d : List (String × String)) :
    (parse_github_day d).length = 48 := by
  simp only [parse_github_day]
  rw [flatten_pairs_length _ (fun a => by split_ifs <;> rfl) (List.range' 1 24)]
  simp

/-- C5 counterexample: the empty day payload has every one of the 24 hour
keys absent — the claim's condition — yet it is falsy in Python, so the
program skips the day and records no DaySchedule at all (`none`), instead of
producing the pending DaySchedule the claim asserts. -/
theorem github_empty_payload_skipped_cex :
    github_day_schedule (some []) = none ∧
    (∀ h ∈ List.range' 1 24,
      ([] : List (String × String)).lookup (toString h) = none) := by
  refine ⟨rfl, by decide⟩

/-- C5 amended: a non-empty day payload in which each of the 24 hour keys is
absent or maps to `"yes"` is classified `pending` with no slots (never
`normal` with an all-on array); any other non-empty payload is classified
`normal` with the concatenated 48-slot array; an absent or empty (falsy) day
payload is skipped entirely, with no DaySchedule recorded. -/
theorem github_pending_classification (d : List (String × String)) :
    (d ≠ [] →
      (∀ h ∈ List.range' 1 24,
        d.lookup (toString h) = none ∨ d.lookup (toString h) = some "yes") →
      github_day_schedule (some d) = some (none, "pending")) ∧
    (d ≠ [] →
      (¬ ∀ h ∈ List.range' 1 24,
        d.lookup (toString h) = none ∨ d.lookup (toString h) = some "yes") →
      github_day_schedule (some d) = some (some (parse_github_day d), "normal") ∧
        (parse_github_day d).length = 48) ∧
    github_day_schedule (some []) = none ∧
    github_day_schedule none = none := by
  refine ⟨?_, ?_, rfl, rfl⟩
  · intro hne hc
    have hemp : d.isEmpty = false := by
      cases d with
      | nil => exact absurd rfl hne
      | cons a t => rfl
    have hy : is_all_yes d = true := (is_all_yes_iff d).mpr hc
    simp [github_day_schedule, hemp, hy]
  · intro hne hc
    have hemp : d.isEmpty = false := by
      cases d with
      | nil => exact absurd rfl hne
      | cons a t => rfl
    have hf : is_all_yes d = false :=
      Bool.eq_false_iff.mpr fun ht => hc ((is_all_yes_iff d).mp ht)
    simp [github_day_schedule, hemp, hf, parse_github_day_length]

/-- C5 witness: the pending classification at a non-empty all-"yes" payload
and the normal classification at a payload with hour 1 mapped to `"no"`. -/
theorem github_pending_classification_witness :
    github_day_schedule (some [("1", "yes")]) = some (none, "pending") ∧
    (github_day_schedule (some [("1", "no")]) =
        some (some (parse_github_day [("1", "no")]), "normal") ∧
      (parse_github_day [("1", "no")]).length = 48) :=
  ⟨(github_pending_classification [("1", "yes")]).1 (by decide) (by decide),
   (github_pending_classification [("1", "no")]).2.1 (by decide) (by decide)⟩

/-- On a constant run the scan loop emits a single period from the running
`start_slot` to the end of the array. -/
theorem stpGo_replicate (len : Nat) (cur : Bool) :
    ∀ (n i start : Nat), stpGo len i cur start (List.replicate n cur) =
      [⟨format_slot_time start, format_slot_time len, cur,
        ((len : ℚ) - (start : ℚ)) * 0.5⟩] := by
  intro n
  induction n with
  | zero => intro i start; exact stpGo_nil_eq len i start cur
  | succ n ih =>
    intro i start
    rw [List.replicate_succ, stpGo_cons_eq, if_pos rfl]
    exact ih (i + 1) start

/-- C9: a GitHub day payload mapping hour "1" to "no" and leaving every other
hour absent normalizes to a `normal` 48-slot array whose compression is
exactly 00:00-01:00 off (1.0 hours) followed by 01:00-24:00 on (23.0 hours). -/
theorem github_single_hour_end_to_end :
    github_day_schedule (some [("1", "no")]) =
      some (some (parse_github_day [("1", "no")]), "normal") ∧
    slots_to_periods (parse_github_day [("1", "no")]) =
      [⟨"00:00", "01:00", false, 1⟩, ⟨"01:00", "24:00", true, 23⟩] := by
  constructor
  · decide
  · have hslots : parse_github_day [("1", "no")] =
        false :: false :: List.replicate 46 true := by decide
    rw [hslots]
    have hL : (false :: false :: List.replicate 46 true).length = 48 := by simp
    simp only [slots_to_periods]
    rw [hL]
    rw [stpGo_cons_eq, if_pos rfl]
    rw [show (46 : Nat) = 45 + 1 from rfl, List.replicate_succ]
    rw [stpGo_cons_eq, if_neg (by decide)]
    rw [stpGo_replicate 48 true 45 3 2]
    rw [show format_slot_time 0 = "00:00" by decide,
      show format_slot_time 2 = "01:00" by decide,
      show format_slot_time 48 = "24:00" by decide]
    norm_num [Period.mk.injEq]

/-! ## Yasno-style normalizer (main.py 249-304)

`slots[i] = is_on` on a Python list accepts negative indices (they address
from the end of the list) and raises `IndexError` otherwise; `pySet` returns
`none` for a raise.  Python `//` is floor division, i.e. `Int.fdiv`. -/

/-- One interval object of a Yasno day payload: `slot.get("start", 0)`,
`slot.get("end", 0)`, `slot.get("type")`. -/
structure YasnoSlot where
  start : Option Int
  «end» : Option Int
  type : Option String
deriving DecidableEq

/-- One Yasno day payload: `status`, `slots`, `date` keys, each possibly absent. -/
structure YasnoDay where
  status : Option String
  slots : Option (List YasnoSlot)
  date : Option String
deriving DecidableEq

/-- Python `l[i] = v` for a list of booleans: negative indices address from the
end; an index out of range raises (`none`). -/
def pySet (l : List Bool) (i : Int) (v : Bool) : Option (List Bool) :=
  let j := if i < 0 then i + l.length else i
  if 0 ≤ j ∧ j < l.length then some (l.set j.toNat v) else none

/-- Python `range(a, b)` over integers. -/
def pyRange (a b : Int) : List Int :=
  (List.range (b - a).toNat).map fun (k : Nat) => a + (k : Int)

/-- Sequential execution of `slots[i] = v` over a list of indices (the body of
the interval loop, main.py 266-267). -/
def write_slots (v : Bool) : List Int → List Bool → Option (List Bool)
  | [], l => some l
  | i :: idxs, l =>
    match pySet l i v with
    | none => none
    | some l' => write_slots v idxs l'

/-- One interval application (main.py 262-267): write `is_on` to every index
in `range(startIdx, min(endIdx, 48))`. -/
def apply_interval (slots : List Bool) (startIdx endIdx : Int) (is_on : Bool) :
    Option (List Bool) :=
  write_slots is_on (pyRange startIdx (min endIdx 48)) slots

/-- The interval loop of `parse_yasno_day` (main.py 261-267), in payload order. -/
def apply_intervals : List YasnoSlot → List Bool → Option (List Bool)
  | [], slots => some slots
  | iv :: ivs, slots =>
    match apply_interval slots ((iv.start.getD 0).fdiv 30) ((iv.«end».getD 0).fdiv 30)
        (iv.type == some "NotPlanned") with
    | none => none
    | some slots' => apply_intervals ivs slots'

/-- `parse_yasno_day` (main.py 249-269); outer `none` models a raised
exception while applying an interval. -/
def parse_yasno_day (day_data : YasnoDay) : Option (Option (List Bool) × String) :=
  if day_data.status.getD "" = "EmergencyShutdowns" then some (none, "emergency")
  else
    match day_data.slots with
    | none => some (none, "pending")
    | some [] => some (none, "pending")
    | some ivs =>
      match apply_intervals ivs (List.replicate 48 true) with
      | none => none
      | some slots => some (some slots, "normal")

/-- C6 counterexample: an interval with start minute -1441 (startIdx -49) is
rejected with an index error, contradicting "never rejected with an error";
its start index is not clamped into the valid range. -/
theorem parse_yasno_negative_start_raises :
    parse_yasno_day ⟨some "", some [⟨some (-1441), some 0, none⟩], none⟩ = none := by
  decide

theorem mem_pyRange (a b i : Int) : i ∈ pyRange a b ↔ a ≤ i ∧ i < b := by
  unfold pyRange
  rw [List.mem_map]
  constructor
  · rintro ⟨k, hk, hke⟩
    rw [List.mem_range] at hk
    omega
  · intro h
    exact ⟨(i - a).toNat, List.mem_range.mpr (by omega), by omega⟩

/-- Writing one value at a list of valid non-negative indices succeeds,
preserves the length, and changes exactly the written indices. -/
theorem write_slots_spec (v : Bool) :
    ∀ (idxs : List Int) (l : List Bool), (∀ i ∈ idxs, 0 ≤ i ∧ i < l.length) →
      ∃ out, write_slots v idxs l = some out ∧ out.length = l.length ∧
        ∀ j : Nat, out[j]? = if (j : Int) ∈ idxs then some v else l[j]? := by
  intro idxs
  induction idxs with
  | nil =>
    intro l _
    exact ⟨l, rfl, rfl, fun j => by simp⟩
  | cons i idxs ih =>
    intro l hmem
    obtain ⟨hi0, hil⟩ := hmem i (List.mem_cons_self i idxs)
    have hitn : i.toNat < l.length := by omega
    have hset : pySet l i v = some (l.set i.toNat v) := by
      simp only [pySet]
      rw [if_neg (by omega : ¬ i < 0)]
      rw [if_pos ⟨hi0, hil⟩]
    obtain ⟨out, hout, hlen, hchar⟩ := ih (l.set i.toNat v) (fun i' hi' => by
      rw [List.length_set]; exact hmem i' (List.mem_cons_of_mem i hi'))
    refine ⟨out, ?_, by rw [hlen, List.length_set], ?_⟩
    · simp only [write_slots, hset]
      exact hout
    · intro j
      rw [hchar j]
      by_cases hj1 : (j : Int) ∈ idxs
      · rw [if_pos hj1, if_pos (List.mem_cons_of_mem i hj1)]
      · rw [if_neg hj1]
        by_cases hj2 : (j : Int) = i
        · have hji : j = i.toNat := by omega
          rw [if_pos (List.mem_cons.mpr (Or.inl hj2))]
          subst hji
          simp [List.getElem?_set_self, hitn]
        · rw [if_neg (by
            intro hmem2
            rcases List.mem_cons.mp hmem2 with h | h
            · exact hj2 h
            · exact hj1 h)]
          have : i.toNat ≠ j := by omega
          rw [List.getElem?_set_ne this]

/-- C6 amended: for an interval with a non-negative start minute, the start
and (clamped) end indices mark exactly the written range; every write lands
inside `[0, 48)`, the 48-slot length is preserved, and the interval is never
rejected.  (A negative start minute is not clamped: it addresses from the end
of the array or raises, as the counterexample shows.) -/
theorem apply_interval_clamped (slots : List Bool) (hlen : slots.length = 48)
    (s e : Int) (is_on : Bool) (hs : 0 ≤ s) :
    ∃ out, apply_interval slots (s.fdiv 30) (e.fdiv 30) is_on = some out ∧
      out.length = 48 ∧
      ∀ j : Nat, out[j]? =
        if s.fdiv 30 ≤ (j : Int) ∧ (j : Int) < min (e.fdiv 30) 48 then some is_on
        else slots[j]? := by
  have hs0 : 0 ≤ s.fdiv 30 := Int.fdiv_nonneg hs (by omega)
  have hmem : ∀ i ∈ pyRange (s.fdiv 30) (min (e.fdiv 30) 48), 0 ≤ i ∧ i < slots.length := by
    intro i hi
    rw [mem_pyRange] at hi
    constructor
    · omega
    · rw [hlen]; omega
  obtain ⟨out, hout, hl, hchar⟩ :=
    write_slots_spec is_on (pyRange (s.fdiv 30) (min (e.fdiv 30) 48)) slots hmem
  refine ⟨out, hout, by rw [hl, hlen], fun j => ?_⟩
  simp only [hchar j, mem_pyRange]

/-- C6 witness: the amended statement evaluated for the interval 60-120
minutes on an all-on array. -/
theorem apply_interval_clamped_witness :
    ∃ out, apply_interval (List.replicate 48 true) ((60 : Int).fdiv 30)
        ((120 : Int).fdiv 30) false = some out ∧
      out.length = 48 ∧
      ∀ j : Nat, out[j]? =
        if (60 : Int).fdiv 30 ≤ (j : Int) ∧ (j : Int) < min ((120 : Int).fdiv 30) 48
        then some false
        else (List.replicate 48 true)[j]? :=
  apply_interval_clamped (List.replicate 48 true) (by simp) 60 120 false (by decide)

/-! ## `extract_yasno_schedules` (main.py 272-304)

Python `group.replace("GPV", "")` removes every non-overlapping occurrence of
the pattern, scanning left to right; `py_replace` implements that scan on
character lists (Lean core `String.replace` does not evaluate inside the
kernel).  `datetime.fromisoformat` followed by `strftime("%Y-%m-%d")` keeps
the first ten characters of a valid ISO string, modelled by `string_take`;
the stored `datetime` itself is modelled by the ISO string. -/

def py_replace_aux (pat rep : List Char) : Nat → List Char → List Char
  | 0, s => s
  | fuel + 1, s =>
    if pat ≠ [] ∧ pat.isPrefixOf s then rep ++ py_replace_aux pat rep fuel (s.drop pat.length)
    else
      match s with
      | [] => []
      | c :: t => c :: py_replace_aux pat rep fuel t

/-- Python `s.replace(pat, rep)` for a non-empty pattern. -/
def py_replace (s pat rep : String) : String :=
  ⟨py_replace_aux pat.data rep.data s.data.length s.data⟩

/-- One Yasno group payload: optional `today` / `tomorrow` day entries. -/
structure YasnoGroup where
  today : Option YasnoDay
  tomorrow : Option YasnoDay
deriving DecidableEq

/-- The record stored per date by `extract_yasno_schedules` (main.py 298-302);
the `datetime` is modelled by its ISO string. -/
structure YasnoDayRecord where
  slots : Option (List Bool)
  date : String
  status : String
deriving DecidableEq

/-- First `n` characters of a string. -/
def string_take (s : String) (n : Nat) : String := ⟨s.data.take n⟩

/-- The body of the `today`/`tomorrow` loop (main.py 288-302) for one day
entry: skip an absent day or one without a `date` key, otherwise parse it and
append the record under its `YYYY-MM-DD` key. -/
def day_entry_step (acc : List (String × YasnoDayRecord)) (day_opt : Option YasnoDay) :
    Option (List (String × YasnoDayRecord)) :=
  match day_opt with
  | none => some acc
  | some day =>
    match day.date with
    | none => some acc
    | some iso =>
      match parse_yasno_day day with
      | none => none
      | some r => some (acc ++ [(string_take iso 10, ⟨r.1, iso, r.2⟩)])

/-- The per-group date dictionary built by the day loop (main.py 286-302). -/
def process_yasno_group (group_data : YasnoGroup) : Option (List (String × YasnoDayRecord)) :=
  match day_entry_step [] group_data.today with
  | none => none
  | some acc => day_entry_step acc group_data.tomorrow

/-- The group loop of `extract_yasno_schedules` (main.py 279-302): look each
group up under `group.replace("GPV", "")`, skip it when the key is absent,
otherwise store its date dictionary under the full group identifier. -/
def extract_yasno_go (data : List (String × YasnoGroup)) :
    List String → List (String × List (String × YasnoDayRecord)) →
      Option (List (String × List (String × YasnoDayRecord)))
  | [], res => some res
  | group :: groups, res =>
    match data.lookup (py_replace group "GPV" "") with
    | none => extract_yasno_go data groups res
    | some group_data =>
      match process_yasno_group group_data with
      | none => none
      | some entry => extract_yasno_go data groups (res ++ [(group, entry)])

/-- `extract_yasno_schedules` (main.py 272-304); `none` models a raised
exception, and an absent or empty payload yields the empty result. -/
def extract_yasno_schedules (data : Option (List (String × YasnoGroup)))
    (groups : List String) : Option (List (String × List (String × YasnoDayRecord))) :=
  match data with
  | none => some []
  | some d => if d.isEmpty then some [] else extract_yasno_go d groups []

/-- Modelled from the claim's words: the "bare numeric suffix, obtained by
removing any alphabetic group prefix from the identifier". -/
def spec_bare_suffix (g : String) : String := ⟨g.data.dropWhile Char.isAlpha⟩

/-- C8 counterexample: for group "AB7" the payload key the claim prescribes
("7", the identifier minus its alphabetic prefix) is present, yet the group is
skipped, because the code only removes occurrences of the literal "GPV". -/
theorem yasno_lookup_suffix_cex :
    extract_yasno_schedules (some [("7", ⟨none, none⟩)]) ["AB7"] = some [] ∧
    spec_bare_suffix "AB7" = "7" ∧
    ([("7", (⟨none, none⟩ : YasnoGroup))].lookup (spec_bare_suffix "AB7")).isSome = true ∧
    py_replace "AB7" "GPV" "" = "AB7" := by
  refine ⟨by decide, by decide, by decide, by decide⟩

theorem lookup_append_of_ne_none {β : Type} (l₁ l₂ : List (String × β)) (k : String)
    (h : l₁.lookup k ≠ none) : (l₁ ++ l₂).lookup k = l₁.lookup k := by
  induction l₁ with
  | nil => simp [List.lookup] at h
  | cons p l₁ ih =>
    obtain ⟨k', v⟩ := p
    simp only [List.cons_append, List.lookup]
    cases hb : k == k' with
    | true => rfl
    | false =>
      simp only [List.lookup, hb] at h
      exact ih h

theorem lookup_append_of_none {β : Type} (l₁ l₂ : List (String × β)) (k : String)
    (h : l₁.lookup k = none) : (l₁ ++ l₂).lookup k = l₂.lookup k := by
  induction l₁ with
  | nil => rfl
  | cons p l₁ ih =>
    obtain ⟨k', v⟩ := p
    simp only [List.cons_append, List.lookup]
    cases hb : k == k' with
    | true => simp [List.lookup, hb] at h
    | false =>
      simp only [List.lookup, hb] at h
      exact ih h

theorem lookup_self_append {β : Type} (res : List (String × β)) (g : String) (e : β) :
    (res ++ [(g, e)]).lookup g ≠ none := by
  cases hres : res.lookup g with
  | none =>
    rw [lookup_append_of_none res [(g, e)] g hres]
    simp [List.lookup]
  | some v =>
    rw [lookup_append_of_ne_none res [(g, e)] g (by rw [hres]; exact fun hc => by cases hc)]
    rw [hres]
    exact fun hc => by cases hc

theorem extract_yasno_go_cons (data : List (String × YasnoGroup)) (g : String)
    (groups : List String) (res : List (String × List (String × YasnoDayRecord))) :
    extract_yasno_go data (g :: groups) res =
      match data.lookup (py_replace g "GPV" "") with
      | none => extract_yasno_go data groups res
      | some group_data =>
        match process_yasno_group group_data with
        | none => none
        | some entry => extract_yasno_go data groups (res ++ [(g, entry)]) := rfl

/-- A group with an absent key is skipped with no effect and no error. -/
theorem extract_yasno_go_skip (data : List (String × YasnoGroup)) (g : String)
    (h : data.lookup (py_replace g "GPV" "") = none) :
    ∀ gs₁ gs₂ res, extract_yasno_go data (gs₁ ++ g :: gs₂) res =
      extract_yasno_go data (gs₁ ++ gs₂) res := by
  intro gs₁
  induction gs₁ with
  | nil =>
    intro gs₂ res
    show extract_yasno_go data (g :: gs₂) res = extract_yasno_go data gs₂ res
    rw [extract_yasno_go_cons, h]
  | cons g' gs₁ ih =>
    intro gs₂ res
    show extract_yasno_go data (g' :: (gs₁ ++ g :: gs₂)) res =
      extract_yasno_go data (g' :: (gs₁ ++ gs₂)) res
    rw [extract_yasno_go_cons, extract_yasno_go_cons]
    split
    · exact ih gs₂ res
    · split
      · rfl
      · exact ih gs₂ _

/-- The group loop never removes a key already present in the accumulator. -/
theorem extract_yasno_go_preserves (data : List (String × YasnoGroup)) :
    ∀ gs res res', extract_yasno_go data gs res = some res' →
      ∀ k, res.lookup k ≠ none → res'.lookup k ≠ none := by
  intro gs
  induction gs with
  | nil =>
    intro res res' h k hk
    obtain rfl : res = res' := by simpa [extract_yasno_go] using h
    exact hk
  | cons g gs ih =>
    intro res res' h k hk
    rw [extract_yasno_go_cons] at h
    split at h
    · exact ih res res' h k hk
    · split at h
      · cases h
      · rename_i entry hp
        refine ih _ res' h k ?_
        cases hres : res.lookup k with
        | none =>
          rw [lookup_append_of_none res [(_, entry)] k hres]
          rw [hres] at hk
          exact absurd rfl hk
        | some v =>
          rw [lookup_append_of_ne_none res [(_, entry)] k
            (by rw [hres]; exact fun hc => by cases hc)]
          rw [hres]
          exact fun hc => by cases hc

/-- A group whose key is present ends up with an entry whenever the loop
returns successfully. -/
theorem extract_yasno_go_adds (data : List (String × YasnoGroup)) (g : String)
    (hne : data.lookup (py_replace g "GPV" "") ≠ none) :
    ∀ gs₁ gs₂ res res', extract_yasno_go data (gs₁ ++ g :: gs₂) res = some res' →
      res'.lookup g ≠ none := by
  intro gs₁
  induction gs₁ with
  | nil =>
    intro gs₂ res res' h
    simp only [List.nil_append] at h
    rw [extract_yasno_go_cons] at h
    split at h
    · rename_i hl
      exact absurd hl hne
    · split at h
      · cases h
      · rename_i entry hp
        exact extract_yasno_go_preserves data gs₂ (res ++ [(g, entry)]) res' h g
          (lookup_self_append res g entry)
  | cons g' gs₁ ih =>
    intro gs₂ res res' h
    simp only [List.cons_append] at h
    rw [extract_yasno_go_cons] at h
    split at h
    · exact ih gs₂ res res' h
    · split at h
      · cases h
      · exact ih gs₂ _ res' h

/-- C8 amended: each configured group is looked up in the payload under the
key obtained by removing every occurrence of the literal "GPV" from the
identifier (for standard `GPV`-prefixed identifiers this is the bare numeric
suffix); a group whose key is absent is skipped silently — removing it from
the group list changes nothing, no error and no snapshot entry — while a
present key yields an entry for that group whenever extraction succeeds. -/
theorem extract_yasno_group_lookup (data : List (String × YasnoGroup))
    (gs₁ gs₂ : List String) (g : String) :
    (data.lookup (py_replace g "GPV" "") = none →
      extract_yasno_schedules (some data) (gs₁ ++ g :: gs₂) =
        extract_yasno_schedules (some data) (gs₁ ++ gs₂)) ∧
    (∀ res, data.lookup (py_replace g "GPV" "") ≠ none →
      extract_yasno_schedules (some data) (gs₁ ++ g :: gs₂) = some res →
      res.lookup g ≠ none) := by
  constructor
  · intro h
    simp only [extract_yasno_schedules]
    by_cases hd : data.isEmpty
    · simp [hd]
    · simp only [if_neg hd]
      exact extract_yasno_go_skip data g h gs₁ gs₂ []
  · intro res hne hex
    simp only [extract_yasno_schedules] at hex
    by_cases hd : data.isEmpty
    · obtain rfl : data = [] := List.isEmpty_iff.mp hd
      simp [List.lookup] at hne
    · rw [if_neg hd] at hex
      exact extract_yasno_go_adds data g hne gs₁ gs₂ [] res hex

/-- C8 witness: skipping for "GPV9" (key "9" absent) and entry creation for
"GPV7" (key "7" present) on a one-group payload. -/
theorem extract_yasno_group_lookup_witness :
    (extract_yasno_schedules (some [("7", (⟨none, none⟩ : YasnoGroup))]) ["GPV9"] =
      extract_yasno_schedules (some [("7", (⟨none, none⟩ : YasnoGroup))]) []) ∧
    ([("GPV7", ([] : List (String × YasnoDayRecord)))].lookup "GPV7" ≠ none) :=
  ⟨(extract_yasno_group_lookup [("7", ⟨none, none⟩)] [] [] "GPV9").1 (by decide),
   (extract_yasno_group_lookup [("7", ⟨none, none⟩)] [] [] "GPV7").2
     [("GPV7", [])] (by decide) (by decide)⟩

/-! ## Caching and change detection (main.py 350-390)

`schedules_to_cache_format` reduces each provider snapshot to
`group -> date -> {slots, status}`; dictionaries are modelled by association
lists in the (deterministic) insertion order the code produces. -/

/-- One cached day: the `{"slots": ..., "status": ...}` dict (main.py 357-360). -/
structure CacheEntry where
  slots : Option (List Bool)
  status : String
deriving DecidableEq

/-- The persisted cache shape: the `{"github": ..., "yasno": ...}` dict built
by `schedules_to_cache_format` (main.py 350-370). -/
structure Cache where
  github : List (String × List (String × CacheEntry))
  yasno : List (String × List (String × CacheEntry))
deriving DecidableEq

/-- `schedules_changed` (main.py 388-390): Python `new_cache != old_cache`. -/
def schedules_changed (new_cache old_cache : Cache) : Bool :=
  decide (¬ new_cache = old_cache)

/-- What `load_cached_schedules` (main.py 373-379) returns when no cache file
exists: `{"github": {}, "yasno": {}}`. -/
def load_cached_schedules_fallback : Cache := ⟨[], []⟩

/-- C4: `schedules_changed` is false exactly on deep structural equality; in
particular a snapshot compared to itself gives false, any difference —
including a single flipped slot boolean — gives true, and a non-empty snapshot
compared against the missing-cache fallback gives true. -/
theorem schedules_changed_spec (n o : Cache) :
    (schedules_changed n o = false ↔ n = o) ∧
    schedules_changed n n = false ∧
    (n ≠ o → schedules_changed n o = true) ∧
    (∀ (g d st : String) (ys : List (String × List (String × CacheEntry)))
        (l : List Bool) (i : Nat) (hi : i < l.length),
      schedules_changed
        ⟨[(g, [(d, ⟨some (l.set i (! l.get ⟨i, hi⟩)), st⟩)])], ys⟩
        ⟨[(g, [(d, ⟨some l, st⟩)])], ys⟩ = true) ∧
    ((n.github ≠ [] ∨ n.yasno ≠ []) →
      schedules_changed n load_cached_schedules_fallback = true) := by
  refine ⟨?_, ?_, ?_, ?_, ?_⟩
  · simp [schedules_changed]
  · simp [schedules_changed]
  · intro h
    simp [schedules_changed, h]
  · intro g d st ys l i hi
    simp only [schedules_changed, decide_eq_true_eq]
    intro hc
    have hslots : l.set i (! l.get ⟨i, hi⟩) = l := by
      have := congrArg Cache.github hc
      simp only [List.cons.injEq, Prod.mk.injEq, CacheEntry.mk.injEq,
        Option.some.injEq, and_true, true_and] at this
      exact this
    have h1 : (l.set i (! l.get ⟨i, hi⟩))[i]? = l[i]? := by rw [hslots]
    rw [List.getElem?_set_self (by simpa using hi), List.getElem?_eq_getElem hi] at h1
    have h2 : (! l.get ⟨i, hi⟩) = l[i] := by
      simp only [Option.some.injEq] at h1
      exact h1
    rw [List.get_eq_getElem] at h2
    exact Bool.not_ne_self _ h2
  · intro h
    simp only [schedules_changed, decide_eq_true_eq]
    intro hc
    rcases h with h | h
    · exact h (by rw [hc]; rfl)
    · exact h (by rw [hc]; rfl)

/-- C4 witness: a first-run change, a one-slot flip, and a plain difference,
each on concrete caches. -/
theorem schedules_changed_spec_witness :
    schedules_changed ⟨[("g", [("2024-01-01", ⟨some [true], "normal"⟩)])], []⟩ ⟨[], []⟩ = true ∧
    schedules_changed
      ⟨[("g", [("d", ⟨some ([true].set 0 (! [true].get ⟨0, Nat.one_pos⟩)), "normal"⟩)])], []⟩
      ⟨[("g", [("d", ⟨some [true], "normal"⟩)])], []⟩ = true ∧
    schedules_changed ⟨[("g", [("2024-01-01", ⟨some [true], "normal"⟩)])], []⟩
      load_cached_schedules_fallback = true :=
  ⟨(schedules_changed_spec ⟨[("g", [("2024-01-01", ⟨some [true], "normal"⟩)])], []⟩
      ⟨[], []⟩).2.2.1 (by decide),
   (schedules_changed_spec ⟨[], []⟩ ⟨[], []⟩).2.2.2.1 "g" "d" "normal" [] [true] 0 Nat.one_pos,
   (schedules_changed_spec ⟨[("g", [("2024-01-01", ⟨some [true], "normal"⟩)])], []⟩
      ⟨[], []⟩).2.2.2.2 (Or.inl (by decide))⟩

/-! ## Presenter and reconciler (main.py 395-635)

The `datetime` objects consumed by the presenter are used only through
`date.weekday()` and `date.strftime("%d.%m")`; `PyDate` models exactly those
two projections.  Icon, label, template and source-name strings are the
`DEFAULT_CONFIG` values (what the global `CONFIG` holds when no `config.json`
overrides them), inlined where the code reads them. -/

/-- `DAYS_UA` (main.py 22-30). -/
def DAYS_UA (d : Fin 7) : String :=
  (["Понеділок", "Вівторок", "Середа", "Четвер",
    "П'ятниця", "Субота", "Неділя"]).getD d.val ""

/-- A `datetime` as the presenter sees it: its weekday and its `%d.%m` text. -/
structure PyDate where
  weekday : Fin 7
  dayMonth : String
deriving DecidableEq

/-- `CONFIG["sources"]["github"]["name"]` (DEFAULT_CONFIG, main.py 37). -/
def github_source_name : String := "outage-data-ua"

/-- `CONFIG["sources"]["yasno"]["name"]` (DEFAULT_CONFIG, main.py 38). -/
def yasno_source_name : String := "yasno"

/-- `CONFIG["display"]["format"]` (DEFAULT_CONFIG, main.py 41). -/
def display_format : String := "list"

/-- `format_schedule_list` (main.py 395-446); the per-period loop carries the
rendered lines and the two running totals. -/
def format_schedule_list (periods : List Period) (date : PyDate) (sources : List String)
    (special_status : Option String) : String :=
  let day_name := DAYS_UA date.weekday
  let date_str := date.dayMonth
  let sources_str := String.intercalate ", " sources
  let header := "📆" ++ "  " ++ date_str ++ " (" ++ day_name ++ ") [" ++ sources_str ++ "]:"
  if special_status = some "emergency" then
    String.intercalate "\n" [header, "", "🚨" ++ " " ++ "АВАРІЙНЕ ВІДКЛЮЧЕННЯ!"]
  else if special_status = some "pending" then
    String.intercalate "\n" [header, "", "⏳" ++ " " ++ "Очікується інформація про графік"]
  else
    let step := periods.foldl
      (fun (acc : List String × ℚ × ℚ) p =>
        let icon := if p.is_on then "🟩" else "🟠"
        let line := icon ++ " " ++ p.start ++ " - " ++ p.«end» ++ " … (" ++
          format_hours p.hours ++ ")"
        (acc.1 ++ [line],
         if p.is_on then acc.2.1 + p.hours else acc.2.1,
         if p.is_on then acc.2.2 else acc.2.2 + p.hours))
      ([], 0, 0)
    String.intercalate "\n"
      ([header, ""] ++ step.1 ++
        ["", "🟩" ++ " " ++ "Світло є" ++ ": " ++ format_hours step.2.1,
         "🟠" ++ " " ++ "Світла нема" ++ ": " ++ format_hours step.2.2])

/-- `format_schedule_table` (main.py 451-512). -/
def format_schedule_table (periods : List Period) (date : PyDate) (sources : List String)
    (special_status : Option String) : String :=
  let sep := "----------------------------------------------"
  let day_name := DAYS_UA date.weekday
  let date_str := date.dayMonth
  let sources_str := String.intercalate ", " sources
  let header := "📆" ++ "  " ++ date_str ++ " (" ++ day_name ++ ") [" ++ sources_str ++ "]:"
  if special_status = some "emergency" then
    String.intercalate "\n" [header, "", "🚨" ++ " " ++ "АВАРІЙНЕ ВІДКЛЮЧЕННЯ!"]
  else if special_status = some "pending" then
    String.intercalate "\n" [header, "", "⏳" ++ " " ++ "Очікується інформація про графік"]
  else
    let step := periods.foldl
      (fun (acc : List String × ℚ × ℚ) p =>
        let time_range := p.start ++ " - " ++ p.«end»
        let hours_text := "(" ++ format_hours p.hours ++ ")"
        if p.is_on then
          (acc.1 ++ ["              |  " ++ time_range ++ "  | " ++ hours_text],
           acc.2.1 + p.hours, acc.2.2)
        else
          (acc.1 ++ [time_range ++ " |              | " ++ hours_text],
           acc.2.1, acc.2.2 + p.hours))
      ([], 0, 0)
    String.intercalate "\n"
      ([header, "", sep,
        "   " ++ "🟠" ++ " " ++ "Світла нема" ++ "    |       " ++ "🟩" ++ " " ++
          "Світло є" ++ "      |   Час " ++ "🕐",
        sep] ++ step.1 ++
        [sep, "", "🟩" ++ " " ++ "Світло є" ++ ": " ++ format_hours step.2.1,
         "🟠" ++ " " ++ "Світла нема" ++ ": " ++ format_hours step.2.2])

/-- `format_schedule_message` (main.py 517-529): route on the configured
display format. -/
def format_schedule_message (periods : List Period) (date : PyDate) (sources : List String)
    (special_status : Option String) : String :=
  if display_format = "table" then format_schedule_table periods date sources special_status
  else format_schedule_list periods date sources special_status

/-- One normalized day record (`{"slots": ..., "date": ..., "status": ...}`). -/
structure DaySchedule where
  slots : Option (List Bool)
  date : PyDate
  status : String
deriving DecidableEq

/-- Python truthiness of a slots value: `None` and `[]` are falsy. -/
def truthy : Option (List Bool) → Bool
  | none => false
  | some l => !l.isEmpty

/-- `schedules_match` (main.py 341-345). -/
def schedules_match (slots1 slots2 : Option (List Bool)) : Bool :=
  if !truthy slots1 || !truthy slots2 then false
  else decide (slots1 = slots2)

/-- `format_single_source_message` (main.py 532-548). -/
def format_single_source_message (data : Option DaySchedule) (date : PyDate)
    (source : String) : Option String :=
  match data with
  | none => none
  | some d =>
    if d.status = "normal" ∧ truthy d.slots = true then
      some (format_schedule_message (slots_to_periods (d.slots.getD [])) date [source] none)
    else if d.status = "pending" then
      some (format_schedule_message [] date [source] (some "pending"))
    else if d.status = "emergency" then
      some (format_schedule_message [] date [source] (some "emergency"))
    else none

/-- The date chosen for one day block (main.py 586-593): GitHub's date when
present, else Yasno's. -/
def day_date (github_data yasno_data : Option DaySchedule) : Option PyDate :=
  match github_data with
  | some g => some g.date
  | none =>
    match yasno_data with
    | some y => some y.date
    | none => none

/-- The body of the per-date loop of `format_group_message` (main.py 581-629):
the list `source_messages` built for one group and one date. -/
def day_source_messages (github_data yasno_data : Option DaySchedule) : List String :=
  match day_date github_data yasno_data with
  | none => []
  | some date =>
    let github_slots := match github_data with | some g => g.slots | none => none
    let yasno_slots := match yasno_data with | some y => y.slots | none => none
    let github_status := match github_data with | some g => some g.status | none => none
    let yasno_status := match yasno_data with | some y => some y.status | none => none
    if (github_status = some "normal" ∧ yasno_status = some "normal" ∧
        truthy github_slots = true ∧ truthy yasno_slots = true) ∧
        schedules_match github_slots yasno_slots = true then
      [format_schedule_message (slots_to_periods (github_slots.getD [])) date
        [github_source_name, yasno_source_name] none]
    else
      (if github_data.isSome then
        (format_single_source_message github_data date github_source_name).toList
      else []) ++
      (if yasno_data.isSome then
        (format_single_source_message yasno_data date yasno_source_name).toList
      else [])

/-- The claim's merge condition: both providers normal with non-empty,
element-wise identical slot arrays. -/
def matchCond (github_data yasno_data : Option DaySchedule) : Prop :=
  ∃ gd yd gl yl, github_data = some gd ∧ yasno_data = some yd ∧
    gd.status = "normal" ∧ yd.status = "normal" ∧
    gd.slots = some gl ∧ yd.slots = some yl ∧ gl ≠ [] ∧ yl ≠ [] ∧ gl = yl

/-- The DaySchedule invariant of the data model: status is one of the three
tags, `normal` iff slots present and non-empty, `pending`/`emergency` with no
slots. -/
def validDay (d : DaySchedule) : Prop :=
  (d.status = "normal" ∨ d.status = "pending" ∨ d.status = "emergency") ∧
  (d.status = "normal" ↔ ∃ l, d.slots = some l ∧ l ≠ []) ∧
  ((d.status = "pending" ∨ d.status = "emergency") → d.slots = none)

theorem truthy_of_ne_nil (l : List Bool) (h : l ≠ []) : truthy (some l) = true := by
  cases l with
  | nil => exact absurd rfl h
  | cons a t => rfl

theorem truthy_eq_true_iff (o : Option (List Bool)) :
    truthy o = true ↔ ∃ l, o = some l ∧ l ≠ [] := by
  cases o with
  | none => simp [truthy]
  | some l =>
    cases l with
    | nil => simp [truthy]
    | cons a t => simp [truthy]

theorem schedules_match_eq (s1 s2 : Option (List Bool))
    (h : schedules_match s1 s2 = true) : s1 = s2 := by
  simp only [schedules_match] at h
  split at h
  · cases h
  · exact of_decide_eq_true h

theorem schedules_match_self (l : List Bool) (h : l ≠ []) :
    schedules_match (some l) (some l) = true := by
  simp [schedules_match, truthy_of_ne_nil l h]

/-- C10: a record with status `normal` but empty or absent slots (violating
the DaySchedule invariant) silently renders nothing: no message, no error. -/
theorem format_single_source_invalid_normal (d : DaySchedule) (date : PyDate)
    (source : String) (hst : d.status = "normal")
    (hsl : d.slots = none ∨ d.slots = some []) :
    format_single_source_message (some d) date source = none := by
  have ht : truthy d.slots = false := by rcases hsl with h | h <;> simp [truthy, h]
  simp only [format_single_source_message]
  rw [if_neg (by rw [ht]; rintro ⟨-, hc⟩; cases hc)]
  rw [if_neg (by rw [hst]; decide)]
  rw [if_neg (by rw [hst]; decide)]

/-- C10 witness: a normal-status record with absent slots renders nothing. -/
theorem format_single_source_invalid_normal_witness :
    format_single_source_message (some ⟨none, ⟨0, "01.01"⟩, "normal"⟩)
      ⟨0, "01.01"⟩ "outage-data-ua" = none :=
  format_single_source_invalid_normal ⟨none, ⟨0, "01.01"⟩, "normal"⟩ ⟨0, "01.01"⟩
    "outage-data-ua" rfl (Or.inl rfl)

/-- A valid present record always renders exactly one message. -/
theorem format_single_source_valid (d : DaySchedule) (date : PyDate) (source : String)
    (hv : validDay d) :
    ∃ m, format_single_source_message (some d) date source = some m := by
  obtain ⟨hst, hiff, hpe⟩ := hv
  rcases hst with h | h | h
  · obtain ⟨l, hl, hne⟩ := hiff.mp h
    have heq : format_single_source_message (some d) date source =
        some (format_schedule_message (slots_to_periods (d.slots.getD [])) date
          [source] none) := by
      simp only [format_single_source_message]
      rw [if_pos ⟨h, by rw [hl]; exact truthy_of_ne_nil l hne⟩]
    exact ⟨_, heq⟩
  · have heq : format_single_source_message (some d) date source =
        some (format_schedule_message [] date [source] (some "pending")) := by
      simp only [format_single_source_message]
      rw [if_neg (by rw [h]; rintro ⟨hc, -⟩; exact absurd hc (by decide))]
      rw [if_pos h]
    exact ⟨_, heq⟩
  · have heq : format_single_source_message (some d) date source =
        some (format_schedule_message [] date [source] (some "emergency")) := by
      simp only [format_single_source_message]
      rw [if_neg (by rw [h]; rintro ⟨hc, -⟩; exact absurd hc (by decide))]
      rw [if_neg (by rw [h]; decide)]
      rw [if_pos h]
    exact ⟨_, heq⟩

/-- C3: for one group and one date (DaySchedules satisfying the data-model
invariant), a single combined display unit naming both providers is emitted
exactly when both providers are `normal` with non-empty element-wise identical
slot arrays; in every other case one independent display unit per provider
with an entry is emitted (built per provider by `format_single_source_message`
with that provider's name alone), and a provider with no entry contributes
nothing. -/
theorem reconciler_combined_iff (github_data yasno_data : Option DaySchedule)
    (hg : ∀ d, github_data = some d → validDay d)
    (hy : ∀ d, yasno_data = some d → validDay d) :
    (∀ gd gl, github_data = some gd → gd.slots = some gl →
      matchCond github_data yasno_data →
      day_source_messages github_data yasno_data =
        [format_schedule_message (slots_to_periods gl) gd.date
          [github_source_name, yasno_source_name] none]) ∧
    (¬ matchCond github_data yasno_data →
      (day_source_messages github_data yasno_data).length =
        ((if github_data.isSome then 1 else 0) + (if yasno_data.isSome then 1 else 0)) ∧
      (∀ date, day_date github_data yasno_data = some date →
        day_source_messages github_data yasno_data =
          (format_single_source_message github_data date github_source_name).toList ++
          (format_single_source_message yasno_data date yasno_source_name).toList) ∧
      (day_date github_data yasno_data = none →
        day_source_messages github_data yasno_data = [])) := by
  constructor
  · rintro gd gl hgd hgl ⟨gd', yd, gl', yl, hg', hy', hgst, hyst, hgsl, hysl,
      hglne, hylne, hgyeq⟩
    subst hg'
    subst hy'
    obtain rfl : gd' = gd := Option.some.inj hgd
    obtain rfl : gl' = gl := by rw [hgsl] at hgl; exact Option.some.inj hgl
    have hcond : (some gd'.status = some "normal" ∧ some yd.status = some "normal" ∧
        truthy gd'.slots = true ∧ truthy yd.slots = true) ∧
        schedules_match gd'.slots yd.slots = true := by
      refine ⟨⟨by rw [hgst], by rw [hyst], ?_, ?_⟩, ?_⟩
      · rw [hgsl]; exact truthy_of_ne_nil gl' hglne
      · rw [hysl]; exact truthy_of_ne_nil yl hylne
      · rw [hgsl, hysl, hgyeq]; exact schedules_match_self yl hylne
    simp only [day_source_messages, day_date]
    rw [if_pos hcond, hgsl]
    rfl
  · intro hnm
    rcases github_data with _ | gd
    · rcases yasno_data with _ | yd
      · refine ⟨by simp [day_source_messages, day_date], ?_, fun _ => rfl⟩
        intro date hd
        simp [day_date] at hd
      · have hvy := hy yd rfl
        obtain ⟨m, hm⟩ := format_single_source_valid yd yd.date yasno_source_name hvy
        have hcond : ¬ (((none : Option String) = some "normal" ∧
            some yd.status = some "normal" ∧
            truthy (none : Option (List Bool)) = true ∧ truthy yd.slots = true) ∧
            schedules_match none yd.slots = true) := by
          rintro ⟨⟨hc, -⟩, -⟩; cases hc
        refine ⟨?_, ?_, ?_⟩
        · simp only [day_source_messages, day_date]
          rw [if_neg hcond]
          simp [hm]
        · intro date hd
          obtain rfl : yd.date = date := by simpa [day_date] using hd
          simp only [day_source_messages, day_date]
          rw [if_neg hcond]
          rfl
        · intro hd; simp [day_date] at hd
    · rcases yasno_data with _ | yd
      · have hvg := hg gd rfl
        obtain ⟨m, hm⟩ := format_single_source_valid gd gd.date github_source_name hvg
        have hcond : ¬ ((some gd.status = some "normal" ∧
            (none : Option String) = some "normal" ∧
            truthy gd.slots = true ∧ truthy (none : Option (List Bool)) = true) ∧
            schedules_match gd.slots none = true) := by
          rintro ⟨⟨-, hc, -⟩, -⟩; cases hc
        refine ⟨?_, ?_, ?_⟩
        · simp only [day_source_messages, day_date]
          rw [if_neg hcond]
          simp [hm]
        · intro date hd
          obtain rfl : gd.date = date := by simpa [day_date] using hd
          simp only [day_source_messages, day_date]
          rw [if_neg hcond]
          rfl
        · intro hd; simp [day_date] at hd
      · have hvg := hg gd rfl
        have hvy := hy yd rfl
        obtain ⟨m1, hm1⟩ := format_single_source_valid gd gd.date github_source_name hvg
        obtain ⟨m2, hm2⟩ := format_single_source_valid yd gd.date yasno_source_name hvy
        have hcond : ¬ ((some gd.status = some "normal" ∧ some yd.status = some "normal" ∧
            truthy gd.slots = true ∧ truthy yd.slots = true) ∧
            schedules_match gd.slots yd.slots = true) := by
          rintro ⟨⟨h1, h2, h3, h4⟩, h5⟩
          apply hnm
          obtain ⟨gl, hgl, hglne⟩ := (truthy_eq_true_iff _).mp h3
          obtain ⟨yl, hyl, hylne⟩ := (truthy_eq_true_iff _).mp h4
          have heq := schedules_match_eq _ _ h5
          rw [hgl, hyl] at heq
          exact ⟨gd, yd, gl, yl, rfl, rfl, Option.some.inj h1, Option.some.inj h2,
            hgl, hyl, hglne, hylne, Option.some.inj heq⟩
        refine ⟨?_, ?_, ?_⟩
        · simp only [day_source_messages, day_date]
          rw [if_neg hcond]
          simp [hm1, hm2]
        · intro date hd
          obtain rfl : gd.date = date := by simpa [day_date] using hd
          simp only [day_source_messages, day_date]
          rw [if_neg hcond]
          rfl
        · intro hd; simp [day_date] at hd

/-- C3 witness: a matched pair renders one combined unit naming both
providers; a pending-only GitHub entry with no Yasno entry renders exactly
one unit. -/
theorem reconciler_combined_iff_witness :
    day_source_messages (some ⟨some (List.replicate 48 true), ⟨0, "01.01"⟩, "normal"⟩)
        (some ⟨some (List.replicate 48 true), ⟨0, "01.01"⟩, "normal"⟩) =
      [format_schedule_message (slots_to_periods (List.replicate 48 true)) ⟨0, "01.01"⟩
        [github_source_name, yasno_source_name] none] ∧
    (day_source_messages (some ⟨none, ⟨0, "01.01"⟩, "pending"⟩) none).length = 1 := by
  have hvn : validDay ⟨some (List.replicate 48 true), ⟨0, "01.01"⟩, "normal"⟩ := by
    refine ⟨Or.inl rfl, ⟨fun _ => ⟨List.replicate 48 true, rfl, by simp⟩, fun _ => rfl⟩, ?_⟩
    rintro (h | h) <;> exact absurd h (by decide)
  have hvp : validDay ⟨none, ⟨0, "01.01"⟩, "pending"⟩ := by
    refine ⟨Or.inr (Or.inl rfl), ⟨fun h => absurd h (by decide), ?_⟩, fun _ => rfl⟩
    rintro ⟨l, hl, -⟩; cases hl
  constructor
  · exact (reconciler_combined_iff _ _ (fun d hd => by rw [← Option.some.inj hd]; exact hvn)
      (fun d hd => by rw [← Option.some.inj hd]; exact hvn)).1
      ⟨some (List.replicate 48 true), ⟨0, "01.01"⟩, "normal"⟩ (List.replicate 48 true)
      rfl rfl
      ⟨⟨some (List.replicate 48 true), ⟨0, "01.01"⟩, "normal"⟩,
       ⟨some (List.replicate 48 true), ⟨0, "01.01"⟩, "normal"⟩,
       List.replicate 48 true, List.replicate 48 true,
       rfl, rfl, rfl, rfl, rfl, rfl, by simp, by simp, rfl⟩
  · exact ((reconciler_combined_iff (some ⟨none, ⟨0, "01.01"⟩, "pending"⟩) none
      (fun d hd => by rw [← Option.some.inj hd]; exact hvp)
      (fun d hd => by cases hd)).2
        (by rintro ⟨gd, yd, gl, yl, -, hy', -⟩; cases hy')).1

end LightMonitor
